import Mathlib

/-!
Shallow embedding of `clonable-iterator-rs` (`src/src/lib.rs`), a library that
turns any iterator with clonable items into a clonable iterator.

Modelling choices, all derived from the source:

* An `mpsc` channel is a FIFO of buffered items together with an `alive` flag
  recording whether the receiver end still exists (a `send` on a channel whose
  receiver was dropped returns `SendError`, which carries the value back).
  The sender stored in `Bus.senders` and the receiver held by the owning
  handle view the same channel, so the model stores the channel once, in the
  bus, keyed by the handle's symbol.
* `Symbol`s are modelled as naturals drawn from a fresh counter (`Sys.nextId`);
  the `symbol` module's actual counter (`CounterStruct`) is embedded separately
  and its freshness is proved (claim C8), which justifies the simplification.
* The wrapped iterator is modelled as the stream of results its successive
  `next()` calls return: a `List (Option α)`.  An empty list means every
  further poll returns `None`.  `Sys.polls` counts how many times
  `inner.next()` has been called, and `Sys.log` records every element ever
  broadcast, in order; both are ghost fields that no operation reads.
* A Rust panic (`unwrap` failure, index out of bounds) is modelled as `none`.
* `Mutex`-guarded sections (`produce`, `branch_off`) are modelled as atomic
  steps; thread interleaving below that granularity is outside the model.
-/

namespace ClonableIter

/-- One mpsc channel of the bus: `alive` is whether the receiver end still
exists, `items` is the buffered FIFO backlog (head = oldest). -/
structure Queue (α : Type) where
  alive : Bool
  items : List α
deriving DecidableEq

/-- The `senders: HashMap<Symbol, mpsc::Sender<T>>` of `Bus` (lib.rs 63-65),
as an association list keyed by `Nat`.  `HashMap` iteration order is
unspecified; the list order stands for one such order and no theorem below
depends on it. -/
abbrev Bus (α : Type) := List (Nat × Queue α)

variable {α β : Type}

/-- Lookup of a key in the senders map. -/
def lookupQ : Bus α → Nat → Option (Queue α)
  | [], _ => none
  | (i, q) :: rest, j => if i = j then some q else lookupQ rest j

/-- Replacement of the channel stored under a key (mutation through
`get_mut`); a key that is absent leaves the map unchanged. -/
def setQ : Bus α → Nat → Queue α → Bus α
  | [], _, _ => []
  | (i, q) :: rest, j, q' => (if i = j then (i, q') else (i, q)) :: setQ rest j q'

/-- `Bus::broadcast` (lib.rs 74-101).  Walks every registered sender exactly
once and performs one `send` per sender: an alive channel gets the value
appended to its backlog, a dead one contributes one `SendError` (modelled as
the undelivered value) to the error list, in iteration order.  The source's
`peekable`/`last_sender` dance only decides whether the last send gets `val`
itself instead of `val.clone()`; it still sends `val.clone()` (line 90), and
clones are identity in the model, so every entry is treated uniformly.
Returns the updated map and the collected errors (`Err` iff nonempty). -/
def broadcast : Bus α → α → Bus α × List α
  | [], _ => ([], [])
  | (i, q) :: rest, v =>
    let r := broadcast rest v
    if q.alive then ((i, ⟨true, q.items ++ [v]⟩) :: r.1, r.2)
    else ((i, q) :: r.1, v :: r.2)

/-- `Bus::add_rx` (lib.rs 102-110): register a fresh channel under a fresh
symbol; the caller keeps the receiver end. -/
def add_rx (bus : Bus α) (newId : Nat) : Bus α :=
  bus ++ [(newId, ⟨true, []⟩)]

/-- Sending a list of items one by one into a channel, in order (the drain and
restore loops of `branch_off`). -/
def pushAll (q : Queue α) (items : List α) : Queue α :=
  items.foldl (fun acc v => ⟨acc.alive, acc.items ++ [v]⟩) q

/-- `Bus::branch_off` (lib.rs 111-130).  Drains every item buffered in
`prev`'s channel in FIFO order (`try_iter`), sending each into the fresh
channel (whose receiver is held locally, so those sends cannot fail), then
re-sends the drained items, in the same order, through `prev`'s stored sender.
`none` models a panic: either `senders.get_mut(&prev.id).unwrap()` when the
key is absent, or a `send(..).unwrap()` when `prev`'s receiver was dropped and
there was at least one item to re-send.  Returns the updated map and the new
channel. -/
def branch_off (bus : Bus α) (prevId newId : Nat) : Option (Bus α × Queue α) :=
  match lookupQ bus prevId with
  | none => none
  | some q =>
    let stored := q.items
    let newQ := pushAll ⟨true, []⟩ stored
    if q.alive || stored.isEmpty then
      some (setQ bus prevId (pushAll ⟨q.alive, []⟩ stored) ++ [(newId, newQ)], newQ)
    else none

/-- State of one wrapped iterator together with every handle descended from
it: `ClonableIteratorOwner` (lib.rs 147-158) plus the channels.  `gen` is the
stream of results the wrapped iterator's remaining `next()` calls return;
`polls` and `log` are ghost fields counting generator polls and recording
every element ever broadcast. -/
structure Sys (α : Type) where
  gen : List (Option α)
  polls : Nat
  log : List α
  bus : Bus α
  nextId : Nat
deriving DecidableEq

/-- `ClonableIteratorOwner::produce` (lib.rs 152-157): poll the wrapped
iterator once; on `Some(val)` broadcast it, discarding any delivery errors
(`.ok()`); on `None` do nothing further. -/
def produce (s : Sys α) : Sys α :=
  match s.gen with
  | [] => { s with polls := s.polls + 1 }
  | none :: rest => { s with gen := rest, polls := s.polls + 1 }
  | some v :: rest =>
    { s with gen := rest, polls := s.polls + 1, log := s.log ++ [v],
             bus := (broadcast s.bus v).1 }

/-- `BusReceiver::try_recv` (lib.rs 139-141) as used by handle `h`: a
non-blocking pop of the handle's own channel; a miss leaves the state
untouched. -/
def try_recv (s : Sys α) (h : Nat) : Option α × Sys α :=
  match lookupQ s.bus h with
  | some ⟨a, v :: rest⟩ => (some v, { s with bus := setQ s.bus h ⟨a, rest⟩ })
  | _ => (none, s)

/-- `Iterator::next` for `Clonable` (lib.rs 210-221): pop the own queue; on a
miss lock the owner, `produce` once, and retry the pop once. -/
def next (s : Sys α) (h : Nat) : Option α × Sys α :=
  match try_recv s h with
  | (some v, s') => (some v, s')
  | (none, _) => try_recv (produce s) h

/-- Iterated `next` on one handle, collecting the returned values. -/
def nextN : Sys α → Nat → Nat → List (Option α) × Sys α
  | s, _, 0 => ([], s)
  | s, h, m + 1 =>
    let r := next s h
    let rs := nextN r.2 h m
    (r.1 :: rs.1, rs.2)

/-- A sequence of `next` calls on the listed handles, in order. -/
def pollSeq : Sys α → List Nat → List (Option α) × Sys α
  | s, [] => ([], s)
  | s, h :: hs =>
    let r := next s h
    let rs := pollSeq r.2 hs
    (r.1 :: rs.1, rs.2)

/-- `IterExt::clonable` / `Clonable::new` (lib.rs 174-186, 201-203): wrap a
generator, registering the first handle (symbol `0`). -/
def clonable (g : List (Option α)) : Sys α × Nat :=
  ({ gen := g, polls := 0, log := [], bus := add_rx [] 0, nextId := 1 }, 0)

/-- `Clone::clone` for `Clonable` (lib.rs 188-196): lock the owner and
`branch_off` the calling handle's channel.  `none` models the panic paths of
`branch_off`. -/
def forkH (s : Sys α) (h : Nat) : Option (Sys α × Nat) :=
  match branch_off s.bus h s.nextId with
  | some (bus', _) => some ({ s with bus := bus', nextId := s.nextId + 1 }, s.nextId)
  | none => none

/-- Destruction of a handle: its receiver is dropped, so its channel's
buffered items are discarded and every later `send` into it fails.  The
entry itself is never removed from the senders map (lib.rs has no
unregistration). -/
def dropH (s : Sys α) (h : Nat) : Sys α :=
  { s with bus := setQ s.bus h ⟨false, []⟩ }

/-- One public-interface action on the system: a `next` call, a `clone`
(fork), or a handle destruction. -/
inductive Op where
  | poll : Nat → Op
  | fork : Nat → Op
  | dropO : Nat → Op

/-- A system together with the set of handles that still exist. -/
structure Conf (α : Type) where
  sys : Sys α
  live : List Nat

/-- Interpretation of one action.  Only an existing handle can be polled,
cloned, or destroyed; an action naming a dead or unknown handle is a no-op
(such a call cannot be made through the public interface). -/
def step (c : Conf α) : Op → Conf α
  | Op.poll h => if h ∈ c.live then { c with sys := (next c.sys h).2 } else c
  | Op.fork h =>
    if h ∈ c.live then
      match forkH c.sys h with
      | some (s', n) => ⟨s', n :: c.live⟩
      | none => c
    else c
  | Op.dropO h => if h ∈ c.live then ⟨dropH c.sys h, c.live.erase h⟩ else c

/-- Interpretation of a whole sequence of actions. -/
def run (c : Conf α) (ops : List Op) : Conf α :=
  ops.foldl step c

/-- The configuration produced by wrapping a generator: one handle, symbol 0. -/
def init (g : List (Option α)) : Conf α :=
  ⟨(clonable g).1, [0]⟩

/-- Well-formedness of a configuration: every registered symbol is below the
fresh-symbol counter, every existing handle owns a registered, alive channel,
and no symbol names two existing handles. -/
def WF (c : Conf α) : Prop :=
  (∀ p ∈ c.sys.bus, p.1 < c.sys.nextId) ∧
  (∀ h ∈ c.live, ∃ q, lookupQ c.sys.bus h = some q ∧ q.alive = true) ∧
  c.live.Nodup

/-- The generator-side invariant tying a reachable system to the wrapped
stream `g`: the unconsumed stream is `g` minus the polls already made, and the
broadcast log is exactly the productive results among those polls. -/
def genInv (g : List (Option α)) (s : Sys α) : Prop :=
  s.gen = g.drop s.polls ∧ s.log = (g.take s.polls).filterMap id

/-- A one-handle system in the shape every single-handle run stays in. -/
def oneH (g : List (Option α)) (p : Nat) (lg : List α) (q : List α) : Sys α :=
  ⟨g, p, lg, [(0, ⟨true, q⟩)], 1⟩

/-- A two-handle system in the shape the runs after one fork stay in. -/
def twoH (g : List (Option α)) (p : Nat) (lg : List α) (q0 q1 : List α) : Sys α :=
  ⟨g, p, lg, [(0, ⟨true, q0⟩), (1, ⟨true, q1⟩)], 2⟩

/-- Value of `u128::MAX`. -/
def U128MAX : Nat := 2 ^ 128 - 1

/-- Core of `CounterStruct::get_and_add_one` (lib.rs 16-40), operating on the
16 `u128` limbs (least significant first).  The `while let` walks up from limb
0: a limb equal to `u128::MAX` is emitted and zeroed and the walk continues; a
smaller limb is emitted and incremented and the walk stops, after which the
trailing `for` loop emits and increments every remaining higher limb.
Arithmetic wraps modulo `2^128` (release profile).  `none` models the
out-of-bounds panic when the carry walks past limb 15.  Returns the emitted
output array and the new counter state. -/
def addLoop : List Nat → Option (List Nat × List Nat)
  | [] => none
  | v :: rest =>
    if v = U128MAX then
      (addLoop rest).map (fun r => (v :: r.1, 0 :: r.2))
    else
      some (v :: rest, ((v + 1) % 2 ^ 128) :: rest.map (fun x => (x + 1) % 2 ^ 128))

/-- `CounterStruct::get_and_add_one` on the full 16-limb state. -/
def get_and_add_one (c : List Nat) : Option (List Nat × List Nat) :=
  addLoop c

/-- State of `GLOBAL_SYMBOL_COUNTER` after `k` calls to `Symbol::new`
(lib.rs 13, 46-55), starting from `CounterStruct::default()`; `none` once a
call has panicked (the poisoned mutex then makes every later call panic). -/
def counterState : Nat → Option (List Nat)
  | 0 => some (List.replicate 16 0)
  | k + 1 => (counterState k).bind fun c => (get_and_add_one c).map Prod.snd

/-- Value returned by the call to `Symbol::new` that has `k` predecessors;
`none` if that call panics. -/
def symbolOut (k : Nat) : Option (List Nat) :=
  (counterState k).bind fun c => (get_and_add_one c).map Prod.fst

end ClonableIter

namespace ClonableIter

variable {α β : Type}

theorem lookupQ_mem : ∀ {b : Bus α} {i : Nat} {q : Queue α},
    lookupQ b i = some q → (i, q) ∈ b
  | (a, qa) :: rest, i, q, h => by
    by_cases hai : a = i
    · subst hai
      have : qa = q := by
        have h' : (if a = a then some qa else lookupQ rest a) = some q := h
        simpa using h'
      subst this
      exact List.mem_cons_self _ _
    · have h' : lookupQ rest i = some q := by
        have h'' : (if a = i then some qa else lookupQ rest i) = some q := h
        rwa [if_neg hai] at h''
      exact List.mem_cons_of_mem _ (lookupQ_mem h')

theorem lookupQ_eq_none {b : Bus α} {i : Nat} (h : i ∉ b.map Prod.fst) :
    lookupQ b i = none := by
  induction b with
  | nil => rfl
  | cons p rest ih =>
    obtain ⟨a, qa⟩ := p
    simp only [List.map_cons, List.mem_cons, not_or] at h
    show (if a = i then some qa else lookupQ rest i) = none
    rw [if_neg (Ne.symm h.1)]
    exact ih h.2

theorem lookupQ_setQ (b : Bus α) (j : Nat) (q' : Queue α) (i : Nat) :
    lookupQ (setQ b j q') i
      = if i = j then (lookupQ b i).map (fun _ => q') else lookupQ b i := by
  induction b with
  | nil => by_cases hij : i = j <;> simp [setQ, lookupQ, hij]
  | cons p rest ih =>
    obtain ⟨a, qa⟩ := p
    show lookupQ ((if a = j then (a, q') else (a, qa)) :: setQ rest j q') i = _
    by_cases haj : a = j
    · rw [if_pos haj]
      show (if a = i then some q' else lookupQ (setQ rest j q') i) = _
      by_cases hai : a = i
      · have hij : i = j := by rw [← hai]; exact haj
        rw [if_pos hai, if_pos hij]
        show some q' = ((if a = i then some qa else lookupQ rest i).map fun _ => q')
        rw [if_pos hai]
        rfl
      · have hij : ¬ i = j := fun h => hai (haj.trans h.symm)
        rw [if_neg hai, ih, if_neg hij, if_neg hij]
        show lookupQ rest i = (if a = i then some qa else lookupQ rest i)
        rw [if_neg hai]
    · rw [if_neg haj]
      show (if a = i then some qa else lookupQ (setQ rest j q') i) = _
      by_cases hai : a = i
      · have hij : ¬ i = j := fun h => haj (hai.trans h)
        rw [if_pos hai, if_neg hij]
        show some qa = (if a = i then some qa else lookupQ rest i)
        rw [if_pos hai]
      · rw [if_neg hai, ih]
        by_cases hij : i = j
        · rw [if_pos hij, if_pos hij]
          have hcons : lookupQ ((a, qa) :: rest) i = lookupQ rest i := by
            show (if a = i then some qa else lookupQ rest i) = _
            rw [if_neg hai]
          rw [hcons]
        · rw [if_neg hij, if_neg hij]
          show lookupQ rest i = (if a = i then some qa else lookupQ rest i)
          rw [if_neg hai]

theorem lookupQ_setQ_self {b : Bus α} {i : Nat} {q : Queue α} (h : lookupQ b i = some q)
    (q' : Queue α) : lookupQ (setQ b i q') i = some q' := by
  rw [lookupQ_setQ, if_pos rfl, h]
  rfl

theorem lookupQ_setQ_ne {i j : Nat} (hij : i ≠ j) (b : Bus α) (q' : Queue α) :
    lookupQ (setQ b j q') i = lookupQ b i := by
  rw [lookupQ_setQ, if_neg hij]

theorem setQ_keys (b : Bus α) (j : Nat) (q' : Queue α) :
    (setQ b j q').map Prod.fst = b.map Prod.fst := by
  induction b with
  | nil => rfl
  | cons p rest ih =>
    obtain ⟨a, qa⟩ := p
    show ((if a = j then (a, q') else (a, qa)) :: setQ rest j q').map Prod.fst = _
    by_cases haj : a = j <;> simp [haj, ih]

theorem lookupQ_append_left {b : Bus α} {i : Nat} {q : Queue α}
    (h : lookupQ b i = some q) (b2 : Bus α) : lookupQ (b ++ b2) i = some q := by
  induction b with
  | nil => exact absurd h (by simp [lookupQ])
  | cons p rest ih =>
    obtain ⟨a, qa⟩ := p
    show (if a = i then some qa else lookupQ (rest ++ b2) i) = some q
    by_cases hai : a = i
    · rw [if_pos hai]
      have h' : (if a = i then some qa else lookupQ rest i) = some q := h
      rwa [if_pos hai] at h'
    · rw [if_neg hai]
      have h' : (if a = i then some qa else lookupQ rest i) = some q := h
      rw [if_neg hai] at h'
      exact ih h'

theorem lookupQ_append_right {b : Bus α} {i : Nat}
    (h : lookupQ b i = none) (b2 : Bus α) : lookupQ (b ++ b2) i = lookupQ b2 i := by
  induction b with
  | nil => rfl
  | cons p rest ih =>
    obtain ⟨a, qa⟩ := p
    show (if a = i then some qa else lookupQ (rest ++ b2) i) = lookupQ b2 i
    have h' : (if a = i then some qa else lookupQ rest i) = none := h
    by_cases hai : a = i
    · rw [if_pos hai] at h'
      exact absurd h' (by simp)
    · rw [if_neg hai] at h'
      rw [if_neg hai]
      exact ih h'

theorem broadcast_fst (b : Bus α) (v : α) :
    (broadcast b v).1.map Prod.fst = b.map Prod.fst := by
  induction b with
  | nil => rfl
  | cons p rest ih =>
    obtain ⟨a, qa⟩ := p
    show (if qa.alive then ((a, ⟨true, qa.items ++ [v]⟩) :: (broadcast rest v).1, (broadcast rest v).2)
          else ((a, qa) :: (broadcast rest v).1, v :: (broadcast rest v).2)).1.map Prod.fst = _
    by_cases hal : qa.alive <;> simp [hal, ih]

theorem lookupQ_broadcast (b : Bus α) (v : α) (i : Nat) :
    lookupQ (broadcast b v).1 i
      = (lookupQ b i).map (fun q => if q.alive then ⟨true, q.items ++ [v]⟩ else q) := by
  induction b with
  | nil => rfl
  | cons p rest ih =>
    obtain ⟨a, qa⟩ := p
    show lookupQ (if qa.alive then ((a, ⟨true, qa.items ++ [v]⟩) :: (broadcast rest v).1, (broadcast rest v).2)
          else ((a, qa) :: (broadcast rest v).1, v :: (broadcast rest v).2)).1 i = _
    by_cases hal : qa.alive
    · rw [if_pos hal]
      show (if a = i then some ⟨true, qa.items ++ [v]⟩ else lookupQ (broadcast rest v).1 i) = _
      by_cases hai : a = i
      · simp [hai, lookupQ, hal]
      · simp only [if_neg hai, ih]
        show _ = Option.map _ (if a = i then some qa else lookupQ rest i)
        rw [if_neg hai]
    · rw [if_neg hal]
      show (if a = i then some qa else lookupQ (broadcast rest v).1 i) = _
      by_cases hai : a = i
      · simp [hai, lookupQ, hal]
      · simp only [if_neg hai, ih]
        show _ = Option.map _ (if a = i then some qa else lookupQ rest i)
        rw [if_neg hai]

theorem broadcast_errors (b : Bus α) (v : α) :
    (broadcast b v).2 = (b.filter fun p => !p.2.alive).map fun _ => v := by
  induction b with
  | nil => rfl
  | cons p rest ih =>
    obtain ⟨a, qa⟩ := p
    show (if qa.alive then ((a, ⟨true, qa.items ++ [v]⟩) :: (broadcast rest v).1, (broadcast rest v).2)
          else ((a, qa) :: (broadcast rest v).1, v :: (broadcast rest v).2)).2 = _
    by_cases hal : qa.alive <;> simp [hal, ih, List.filter_cons]

theorem pushAll_eq (a : Bool) (l m : List α) : pushAll ⟨a, l⟩ m = ⟨a, l ++ m⟩ := by
  induction m generalizing l with
  | nil => simp [pushAll]
  | cons x m ih =>
    show pushAll ⟨a, l ++ [x]⟩ m = _
    rw [ih]
    simp

/-- Claim C2: `branch_off` drains the source handle's buffered backlog and
re-pushes it, in order, into both the new queue and the source queue, so the
source queue's unread backlog is exactly what it was before, the new queue
holds an identical copy of it, and every other queue is untouched — nothing
lost, nothing misplaced, nothing replayed from the consumed prefix (consumed
elements are no longer in the channel at all, so the result queues being
exactly the old backlog rules out any replay). -/
theorem C2_branch_off_net (b : Bus α) (prevId newId : Nat) (q : Queue α)
    (hprev : lookupQ b prevId = some q) (halive : q.alive = true)
    (hfresh : ∀ p ∈ b, p.1 ≠ newId) :
    ∃ b' newQ, branch_off b prevId newId = some (b', newQ) ∧
      newQ = ⟨true, q.items⟩ ∧
      lookupQ b' prevId = some q ∧
      lookupQ b' newId = some ⟨true, q.items⟩ ∧
      ∀ i, i ≠ prevId → i ≠ newId → lookupQ b' i = lookupQ b i := by
  obtain ⟨a, items⟩ := q
  have ha : a = true := halive
  subst ha
  have hnotmem : newId ∉ b.map Prod.fst := by
    intro hmem
    obtain ⟨p, hp, hfst⟩ := List.mem_map.mp hmem
    exact hfresh p hp hfst
  have hnone : lookupQ (setQ b prevId (pushAll ⟨true, []⟩ items)) newId = none := by
    apply lookupQ_eq_none
    rwa [setQ_keys]
  refine ⟨setQ b prevId (pushAll ⟨true, []⟩ items) ++ [(newId, pushAll ⟨true, []⟩ items)],
      pushAll ⟨true, []⟩ items, ?_, ?_, ?_, ?_, ?_⟩
  · simp only [branch_off, hprev]
    rfl
  · rw [pushAll_eq]
    rfl
  · rw [lookupQ_append_left (lookupQ_setQ_self hprev _) _, pushAll_eq]
    rfl
  · rw [lookupQ_append_right hnone]
    show (if newId = newId then some (pushAll ⟨true, []⟩ items) else none) = _
    rw [if_pos rfl, pushAll_eq]
    rfl
  · intro i hiprev hinew
    rcases hcase : lookupQ b i with _ | qi
    · rw [lookupQ_append_right]
      · show (if newId = i then some (pushAll ⟨true, []⟩ items) else none) = none
        rw [if_neg (Ne.symm hinew)]
      · rwa [lookupQ_setQ_ne hiprev]
    · rw [lookupQ_append_left]
      rwa [lookupQ_setQ_ne hiprev]

theorem C2_branch_off_net_w :
    lookupQ ([(0, ⟨true, [7, 8]⟩)] : Bus Nat) 0 = some ⟨true, [7, 8]⟩ ∧
    (∃ b' newQ, branch_off ([(0, ⟨true, [7, 8]⟩)] : Bus Nat) 0 5 = some (b', newQ) ∧
      newQ = ⟨true, [7, 8]⟩ ∧
      lookupQ b' 0 = some ⟨true, [7, 8]⟩ ∧
      lookupQ b' 5 = some ⟨true, [7, 8]⟩ ∧
      ∀ i, i ≠ 0 → i ≠ 5 → lookupQ b' i = lookupQ ([(0, ⟨true, [7, 8]⟩)] : Bus Nat) i) :=
  ⟨rfl, C2_branch_off_net _ 0 5 ⟨true, [7, 8]⟩ rfl rfl (by decide)⟩

/-- Claim C6: every `broadcast(value)` call performs exactly one send per
registered queue, so every alive registered queue — in particular the queue of
the handle that triggered the advance, which is registered like any other —
receives exactly one copy of the value, appended at the tail; a queue whose
receiver is gone is the subject of C7.  The claim's allowance that the last
queue visited may receive the original value rather than a copy is a
no-semantic-difference allowance (and in fact lib.rs line 90 sends a clone to
the last queue as well); clones are identity in the model. -/
theorem C6_broadcast_delivers_once (b : Bus α) (v : α) :
    (broadcast b v).1.map Prod.fst = b.map Prod.fst ∧
    ∀ i q, lookupQ b i = some q →
      lookupQ (broadcast b v).1 i
        = some (if q.alive then ⟨true, q.items ++ [v]⟩ else q) := by
  refine ⟨broadcast_fst b v, fun i q hq => ?_⟩
  rw [lookupQ_broadcast, hq]
  rfl

theorem C6_broadcast_delivers_once_w :
    lookupQ ([(3, ⟨true, [9]⟩)] : Bus Nat) 3 = some ⟨true, [9]⟩ ∧
    lookupQ (broadcast ([(3, ⟨true, [9]⟩)] : Bus Nat) 4).1 3 = some ⟨true, [9, 4]⟩ :=
  ⟨rfl, (C6_broadcast_delivers_once ([(3, ⟨true, [9]⟩)] : Bus Nat) 4).2 3 ⟨true, [9]⟩ rfl⟩

end ClonableIter

namespace ClonableIter

variable {α β : Type}

theorem addLoop_replicate_max : ∀ n, addLoop (List.replicate n U128MAX) = none
  | 0 => rfl
  | n + 1 => by
    rw [List.replicate_succ]
    simp [addLoop, addLoop_replicate_max n]

theorem addLoop_uniform (n k : Nat) (hk : k < U128MAX) (h2 : k + 1 < 2 ^ 128) :
    addLoop (List.replicate (n + 1) k)
      = some (List.replicate (n + 1) k, List.replicate (n + 1) (k + 1)) := by
  simp only [List.replicate_succ]
  simp only [addLoop, if_neg (Nat.ne_of_lt hk), List.map_replicate,
    Nat.mod_eq_of_lt h2]

theorem counterState_eq : ∀ {k : Nat}, k ≤ U128MAX →
    counterState k = some (List.replicate 16 k)
  | 0, _ => rfl
  | k + 1, hk => by
    have hk' : k ≤ U128MAX := Nat.le_of_succ_le hk
    have hklt : k < U128MAX := hk
    have hmax : U128MAX + 1 = 2 ^ 128 := by norm_num [U128MAX]
    have h2 : k + 1 < 2 ^ 128 := by omega
    rw [counterState, counterState_eq hk']
    rw [show (16 : Nat) = 15 + 1 from rfl]
    simp only [Option.some_bind, get_and_add_one, addLoop_uniform 15 k hklt h2]
    rfl

theorem counterState_past_max : ∀ t, counterState (U128MAX + 1 + t) = none
  | 0 => by
    show counterState (U128MAX + 1) = none
    rw [counterState, counterState_eq (le_refl U128MAX)]
    have h16 : get_and_add_one (List.replicate 16 U128MAX) = none := addLoop_replicate_max 16
    show (get_and_add_one (List.replicate 16 U128MAX)).map Prod.snd = none
    simp only [h16, Option.map_none']
  | t + 1 => by
    show counterState ((U128MAX + 1 + t) + 1) = none
    rw [counterState, counterState_past_max t]
    rfl

theorem symbolOut_eq {k : Nat} (hk : k < U128MAX) :
    symbolOut k = some (List.replicate 16 k) := by
  have hmax : U128MAX + 1 = 2 ^ 128 := by norm_num [U128MAX]
  have h2 : k + 1 < 2 ^ 128 := by omega
  rw [symbolOut, counterState_eq (Nat.le_of_lt hk)]
  rw [show (16 : Nat) = 15 + 1 from rfl]
  simp only [Option.some_bind, get_and_add_one, addLoop_uniform 15 k hk h2]
  rfl

theorem symbolOut_none {k : Nat} (hk : U128MAX ≤ k) : symbolOut k = none := by
  rcases Nat.lt_or_ge k (U128MAX + 1) with h | h
  · have hkeq : k = U128MAX := Nat.le_antisymm (Nat.lt_succ_iff.mp h) hk
    subst hkeq
    rw [symbolOut, counterState_eq (le_refl _)]
    have h16 : get_and_add_one (List.replicate 16 U128MAX) = none := addLoop_replicate_max 16
    show (get_and_add_one (List.replicate 16 U128MAX)).map Prod.fst = none
    simp only [h16, Option.map_none']
  · obtain ⟨t, rfl⟩ : ∃ t, k = U128MAX + 1 + t := ⟨k - (U128MAX + 1), by omega⟩
    rw [symbolOut, counterState_past_max t]
    rfl

/-- Claim C8: `Symbol::new`, driven by `CounterStruct::get_and_add_one` over
the 16-limb `u128` counter with carry propagation, never returns the same
value twice in one process lifetime: any two calls that both return a value
return different values.  (From the all-zero initial state the counter stays
uniform across limbs; the call with `2^128 - 1` predecessors would walk the
carry past limb 15 and panic — modelled as `none` — and the panic poisons the
global mutex, so no later call returns either.) -/
theorem C8_symbol_fresh (i j : Nat) (hij : i < j) :
    ∀ a b, symbolOut i = some a → symbolOut j = some b → a ≠ b := by
  intro a b ha hb hab
  rcases Nat.lt_or_ge j U128MAX with hj | hj
  · have hi : i < U128MAX := lt_trans hij hj
    rw [symbolOut_eq hi] at ha
    rw [symbolOut_eq hj] at hb
    have h1 := Option.some.inj ha
    have h2 := Option.some.inj hb
    have h3 : List.replicate 16 i = List.replicate 16 j := by rw [h1, hab, ← h2]
    have h4 : i = j := by
      rw [show (16 : Nat) = 15 + 1 from rfl, List.replicate_succ, List.replicate_succ] at h3
      injection h3
    exact absurd h4 (Nat.ne_of_lt hij)
  · rw [symbolOut_none hj] at hb
    cases hb

theorem C8_symbol_fresh_w :
    (0 : Nat) < 1 ∧ symbolOut 0 = some (List.replicate 16 0) ∧
      symbolOut 1 = some (List.replicate 16 1) ∧
      List.replicate 16 (0 : Nat) ≠ List.replicate 16 1 :=
  ⟨by decide, by decide, by decide,
   C8_symbol_fresh 0 1 (by decide) _ _ (by decide) (by decide)⟩

theorem try_recv_miss {s : Sys α} {h : Nat} (hm : (try_recv s h).1 = none) :
    try_recv s h = (none, s) := by
  rcases hl : lookupQ s.bus h with _ | ⟨a, items⟩
  · simp [try_recv, hl]
  · cases items with
    | nil => simp [try_recv, hl]
    | cons v rest =>
      exfalso
      have hv : (try_recv s h).1 = some v := by simp [try_recv, hl]
      rw [hm] at hv
      cases hv

/-- Claim C3: every `next()` call follows exactly the pop / produce-once /
retry-once path.  Conjunct 1: a hit on the handle's own queue pops its head
and touches nothing else — in particular the generator is not polled.
Conjunct 2: on a miss, the call performs exactly one `produce` (one generator
poll, witnessed by the poll counter rising by exactly one) and its result is
exactly one retried pop of the produced-into state.  Conjunct 3: if the retry
also misses, the call reports end-of-sequence while the state advances only by
the one produce.  Conjunct 4: end-of-sequence is not latched — with a wrapped
iterator whose successive polls yield `Some 1`, `None`, `Some 2`, the three
calls yield `1`, end, `2`: the call after a miss repeats the same path.  Every
operation involved is a total function, so no call can block. -/
theorem C3_next_contract (s : Sys α) (h : Nat) :
    (∀ a v rest, lookupQ s.bus h = some ⟨a, v :: rest⟩ →
        next s h = (some v, { s with bus := setQ s.bus h ⟨a, rest⟩ })) ∧
    ((try_recv s h).1 = none →
        next s h = try_recv (produce s) h ∧ (produce s).polls = s.polls + 1) ∧
    ((try_recv s h).1 = none → (try_recv (produce s) h).1 = none →
        next s h = (none, produce s)) ∧
    (pollSeq (clonable [some 1, none, some 2]).1 [0, 0, 0]).1 = [some 1, none, some 2] := by
  refine ⟨?_, ?_, ?_, by decide⟩
  · intro a v rest hl
    simp [next, try_recv, hl]
  · intro hm
    have ht := try_recv_miss hm
    refine ⟨by simp [next, ht], ?_⟩
    rcases s with ⟨gen, polls, lg, bus, nid⟩
    cases gen with
    | nil => rfl
    | cons o rest => cases o <;> rfl
  · intro hm hm2
    have ht := try_recv_miss hm
    have ht2 := try_recv_miss hm2
    simp [next, ht, ht2]

theorem C3_next_contract_w :
    next (⟨[], 0, [], [(0, ⟨true, [7]⟩)], 1⟩ : Sys Nat) 0
      = (some 7, ⟨[], 0, [], [(0, ⟨true, []⟩)], 1⟩) :=
  (C3_next_contract (⟨[], 0, [], [(0, ⟨true, [7]⟩)], 1⟩ : Sys Nat) 0).1 true 7 [] rfl

theorem setQ_cons (a : Nat) (qa : Queue α) (rest : Bus α) (j : Nat) (q' : Queue α) :
    setQ ((a, qa) :: rest) j q' = (if a = j then (a, q') else (a, qa)) :: setQ rest j q' :=
  rfl

theorem broadcast_cons (a : Nat) (qa : Queue α) (rest : Bus α) (v : α) :
    broadcast ((a, qa) :: rest) v
      = if qa.alive
        then ((a, ⟨true, qa.items ++ [v]⟩) :: (broadcast rest v).1, (broadcast rest v).2)
        else ((a, qa) :: (broadcast rest v).1, v :: (broadcast rest v).2) :=
  rfl

theorem setQ_setQ_ne {i j : Nat} (hij : i ≠ j) (b : Bus α) (qi qj : Queue α) :
    setQ (setQ b i qi) j qj = setQ (setQ b j qj) i qi := by
  induction b with
  | nil => rfl
  | cons p rest ih =>
    obtain ⟨a, qa⟩ := p
    by_cases hai : a = i
    · have haj : ¬ a = j := fun h => hij (hai.symm.trans h)
      conv_lhs => rw [setQ_cons, if_pos hai, setQ_cons, if_neg haj]
      conv_rhs => rw [setQ_cons, if_neg haj, setQ_cons, if_pos hai]
      rw [ih]
    · by_cases haj : a = j
      · conv_lhs => rw [setQ_cons, if_neg hai, setQ_cons, if_pos haj]
        conv_rhs => rw [setQ_cons, if_pos haj, setQ_cons, if_neg hai]
        rw [ih]
      · conv_lhs => rw [setQ_cons, if_neg hai, setQ_cons, if_neg haj]
        conv_rhs => rw [setQ_cons, if_neg haj, setQ_cons, if_neg hai]
        rw [ih]

theorem broadcast_setQ_dead (b : Bus α) (h' : Nat) (v : α) :
    (broadcast (setQ b h' ⟨false, []⟩) v).1 = setQ (broadcast b v).1 h' ⟨false, []⟩ := by
  induction b with
  | nil => rfl
  | cons p rest ih =>
    obtain ⟨a, qa⟩ := p
    by_cases hah : a = h'
    · conv_lhs => rw [setQ_cons, if_pos hah]
      by_cases hal : qa.alive
      · conv_rhs => rw [broadcast_cons, if_pos hal]
        show (a, (⟨false, []⟩ : Queue α)) :: (broadcast (setQ rest h' ⟨false, []⟩) v).1
            = setQ ((a, ⟨true, qa.items ++ [v]⟩) :: (broadcast rest v).1) h' ⟨false, []⟩
        conv_rhs => rw [setQ_cons, if_pos hah]
        rw [ih]
      · conv_rhs => rw [broadcast_cons, if_neg hal]
        show (a, (⟨false, []⟩ : Queue α)) :: (broadcast (setQ rest h' ⟨false, []⟩) v).1
            = setQ ((a, qa) :: (broadcast rest v).1) h' ⟨false, []⟩
        conv_rhs => rw [setQ_cons, if_pos hah]
        rw [ih]
    · conv_lhs => rw [setQ_cons, if_neg hah]
      by_cases hal : qa.alive
      · conv_rhs => rw [broadcast_cons, if_pos hal]
        show (broadcast ((a, qa) :: setQ rest h' ⟨false, []⟩) v).1
            = setQ ((a, ⟨true, qa.items ++ [v]⟩) :: (broadcast rest v).1) h' ⟨false, []⟩
        conv_lhs => rw [broadcast_cons, if_pos hal]
        show (a, (⟨true, qa.items ++ [v]⟩ : Queue α))
              :: (broadcast (setQ rest h' ⟨false, []⟩) v).1
            = setQ ((a, ⟨true, qa.items ++ [v]⟩) :: (broadcast rest v).1) h' ⟨false, []⟩
        conv_rhs => rw [setQ_cons, if_neg hah]
        rw [ih]
      · conv_rhs => rw [broadcast_cons, if_neg hal]
        show (broadcast ((a, qa) :: setQ rest h' ⟨false, []⟩) v).1
            = setQ ((a, qa) :: (broadcast rest v).1) h' ⟨false, []⟩
        conv_lhs => rw [broadcast_cons, if_neg hal]
        show (a, qa) :: (broadcast (setQ rest h' ⟨false, []⟩) v).1
            = setQ ((a, qa) :: (broadcast rest v).1) h' ⟨false, []⟩
        conv_rhs => rw [setQ_cons, if_neg hah]
        rw [ih]

theorem produce_dropH (s : Sys α) (h' : Nat) :
    produce (dropH s h') = dropH (produce s) h' := by
  rcases s with ⟨gen, polls, lg, bus, nid⟩
  cases gen with
  | nil => rfl
  | cons o rest =>
    cases o with
    | none => rfl
    | some v => simp [produce, dropH, broadcast_setQ_dead]

theorem try_recv_dropH {h h' : Nat} (hne : h ≠ h') (s : Sys α) :
    try_recv (dropH s h') h = ((try_recv s h).1, dropH (try_recv s h).2 h') := by
  have hl : lookupQ (setQ s.bus h' ⟨false, []⟩) h = lookupQ s.bus h :=
    lookupQ_setQ_ne hne _ _
  rcases hcase : lookupQ s.bus h with _ | ⟨a, items⟩
  · simp [try_recv, dropH, hl, hcase]
  · cases items with
    | nil => simp [try_recv, dropH, hl, hcase]
    | cons v rest =>
      simp only [try_recv, dropH, hl, hcase]
      exact congrArg (fun bb => ((some v : Option α), ({ s with bus := bb } : Sys α)))
        (setQ_setQ_ne (Ne.symm hne) s.bus _ _)

theorem next_dropH {h h' : Nat} (hne : h ≠ h') (s : Sys α) :
    next (dropH s h') h = ((next s h).1, dropH (next s h).2 h') := by
  rw [next, next, try_recv_dropH hne]
  rcases hcase : try_recv s h with ⟨o, s2⟩
  cases o with
  | some v => rfl
  | none =>
    show try_recv (produce (dropH s h')) h = _
    rw [produce_dropH, try_recv_dropH hne]

theorem nextN_dropH {h h' : Nat} (hne : h ≠ h') (s : Sys α) (m : Nat) :
    nextN (dropH s h') h m = ((nextN s h m).1, dropH (nextN s h m).2 h') := by
  induction m generalizing s with
  | zero => rfl
  | succ m ih => simp [nextN, next_dropH hne, ih]

/-- Claim C7: a `broadcast` over a registry with destroyed receivers records
exactly one delivery error (carrying the value) per dead queue, in iteration
order, and still delivers to every alive registered queue — it never aborts
early.  The producer (`produce`) discards the returned errors (`.ok()`): its
state update is exactly the generator step plus the broadcast's map update,
whatever the error list was.  Consequently destroying one handle never
affects the values any other still-live handle observes: the outputs of any
number of `next` calls on handle `h` are unchanged by the prior destruction
of a different handle. -/
theorem C7_broadcast_partial_failure (b : Bus α) (v : α) :
    ((broadcast b v).2 = (b.filter fun p => !p.2.alive).map fun _ => v) ∧
    (∀ i q, lookupQ b i = some q → q.alive = true →
        lookupQ (broadcast b v).1 i = some ⟨true, q.items ++ [v]⟩) ∧
    (∀ (s : Sys α) (w : α) (rest : List (Option α)), s.gen = some w :: rest →
        produce s = ⟨rest, s.polls + 1, s.log ++ [w], (broadcast s.bus w).1, s.nextId⟩) ∧
    (∀ (s : Sys α) (h h' m : Nat), h ≠ h' →
        (nextN (dropH s h') h m).1 = (nextN s h m).1) := by
  refine ⟨broadcast_errors b v, fun i q hq hal => ?_, fun s w rest hg => ?_,
    fun s h h' m hne => ?_⟩
  · rw [lookupQ_broadcast, hq]
    simp [hal]
  · rcases s with ⟨gen, polls, lg, bus, nid⟩
    cases hg
    rfl
  · rw [nextN_dropH hne]

theorem C7_broadcast_partial_failure_w :
    lookupQ ([(0, ⟨false, []⟩), (1, ⟨true, []⟩)] : Bus Nat) 1 = some ⟨true, []⟩ ∧
    (broadcast ([(0, ⟨false, []⟩), (1, ⟨true, []⟩)] : Bus Nat) 5).2 = [5] ∧
    lookupQ (broadcast ([(0, ⟨false, []⟩), (1, ⟨true, []⟩)] : Bus Nat) 5).1 1
      = some ⟨true, [5]⟩ ∧
    (nextN (dropH (⟨[some 9], 0, [], [(0, ⟨true, []⟩), (1, ⟨true, []⟩)], 2⟩ : Sys Nat) 1) 0 1).1
      = (nextN (⟨[some 9], 0, [], [(0, ⟨true, []⟩), (1, ⟨true, []⟩)], 2⟩ : Sys Nat) 0 1).1 :=
  ⟨rfl,
   (C7_broadcast_partial_failure ([(0, ⟨false, []⟩), (1, ⟨true, []⟩)] : Bus Nat) 5).1.trans
     (by decide),
   (C7_broadcast_partial_failure ([(0, ⟨false, []⟩), (1, ⟨true, []⟩)] : Bus Nat) 5).2.1 1
     ⟨true, []⟩ rfl rfl,
   (C7_broadcast_partial_failure ([] : Bus Nat) 0).2.2.2
     (⟨[some 9], 0, [], [(0, ⟨true, []⟩), (1, ⟨true, []⟩)], 2⟩ : Sys Nat) 0 1 1 (by decide)⟩

end ClonableIter

namespace ClonableIter

variable {α β : Type}

theorem clonable_fst (g : List (Option α)) : (clonable g).1 = oneH g 0 [] [] := rfl

theorem nextN_succ (s : Sys α) (h m : Nat) :
    nextN s h (m + 1)
      = ((next s h).1 :: (nextN (next s h).2 h m).1, (nextN (next s h).2 h m).2) := rfl

theorem nextN_one (s : Sys α) (h : Nat) :
    nextN s h 1 = ([(next s h).1], (next s h).2) := rfl

theorem nextN_step (s : Sys α) (h m : Nat) (o : Option α) (s' : Sys α)
    (hstep : next s h = (o, s')) :
    nextN s h (m + 1) = (o :: (nextN s' h m).1, (nextN s' h m).2) := by
  rw [nextN_succ, hstep]

theorem nextN_add (s : Sys α) (h a b : Nat) :
    nextN s h (a + b)
      = ((nextN s h a).1 ++ (nextN (nextN s h a).2 h b).1, (nextN (nextN s h a).2 h b).2) := by
  induction a generalizing s with
  | zero =>
    rw [Nat.zero_add]
    rfl
  | succ a ih =>
    have h1 : a + 1 + b = a + b + 1 := by omega
    rw [h1, nextN_succ, nextN_succ, ih]
    rfl

theorem next_oneH_pop (g : List (Option α)) (p : Nat) (lg : List α) (v : α) (rest : List α) :
    next (oneH g p lg (v :: rest)) 0 = (some v, oneH g p lg rest) := rfl

theorem next_oneH_some (g : List (Option α)) (p : Nat) (lg : List α) (v : α) :
    next (oneH (some v :: g) p lg []) 0 = (some v, oneH g (p + 1) (lg ++ [v]) []) := rfl

theorem next_oneH_none (g : List (Option α)) (p : Nat) (lg : List α) :
    next (oneH (none :: g) p lg ([] : List α)) 0 = (none, oneH g (p + 1) lg []) := rfl

theorem next_oneH_end (p : Nat) (lg : List α) :
    next (oneH [] p lg ([] : List α)) 0 = (none, oneH [] (p + 1) lg []) := rfl

theorem nextN_oneH (l : List α) (m p : Nat) (lg : List α) :
    nextN (oneH (l.map some) p lg []) 0 m
      = ((l.take m).map some ++ List.replicate (m - l.length) none,
         oneH ((l.drop m).map some) (p + m) (lg ++ l.take m) []) := by
  induction m generalizing l p lg with
  | zero => simp [nextN]
  | succ m ih =>
    cases l with
    | nil =>
      have hrec := ih [] (p + 1) lg
      simp only [List.map_nil, List.take_nil, List.drop_nil, List.nil_append, List.append_nil,
        Nat.sub_zero, List.length_nil] at hrec ⊢
      rw [nextN_step _ _ _ _ _ (next_oneH_end p lg), hrec, List.replicate_succ]
      have harith : p + 1 + m = p + (m + 1) := by omega
      rw [harith]
    | cons x l =>
      have hrec := ih l (p + 1) (lg ++ [x])
      rw [show List.map some (x :: l) = some x :: List.map some l from rfl,
        nextN_step _ _ _ _ _ (next_oneH_some (l.map some) p lg x), hrec]
      simp only [List.take_succ_cons, List.drop_succ_cons, List.length_cons, Nat.succ_sub_succ,
        Nat.add_sub_add_right, List.map_cons, List.cons_append, List.append_assoc,
        List.singleton_append, List.nil_append]
      have harith : p + 1 + m = p + (m + 1) := by omega
      rw [harith]

/-- Claim C4, counterexample: wrapping the length-1 generator `[1]` and
calling `next()` twice yields `some 1` then end-of-sequence exactly as
claimed, but the underlying generator has then been polled twice —
`produce` re-polls the generator on every queue miss, so the generator IS
advanced beyond its `n = 1` productive polls, refuting the claim's "the
underlying generator is not advanced beyond its n productive polls (no extra
generator advances beyond n)". -/
theorem C4_cex_polls_exceed_n :
    (nextN (clonable ([1].map some)).1 0 2).1 = [some 1, none] ∧
    (nextN (clonable ([1].map some)).1 0 2).2.polls = 2 ∧
    ¬ ((nextN (clonable ([1].map some)).1 0 2).2.polls ≤ 1) := by
  decide

/-- Claim C4 as amended: for every n, wrapping a finite generator of length n
(modelled as the poll stream of its n elements, followed by exhaustion
signals forever) and calling `next()` n+1+j times on the first handle yields
the n elements in original order followed by an end-of-sequence result on
every subsequent call — exhaustion is idempotent at the interface.  But it is
not poll-free: after n+1+j calls the generator has been polled exactly
n+1+j times, one poll per call, because `produce` contains no exhaustion
latch; each post-exhaustion poll merely returns exhaustion again and nothing
is broadcast.  Permanence of the end-of-sequence answer is observational,
relying on an exhausted generator continuing to signal exhaustion (a
non-fused generator resumes, see the last conjunct of `C3_next_contract`). -/
theorem C4_exhaustion_idempotent_but_polling (l : List α) (j : Nat) :
    (nextN (clonable (l.map some)).1 0 (l.length + 1 + j)).1
      = l.map some ++ List.replicate (j + 1) none ∧
    (nextN (clonable (l.map some)).1 0 (l.length + 1 + j)).2.polls
      = l.length + 1 + j := by
  rw [clonable_fst, nextN_oneH l (l.length + 1 + j) 0 []]
  constructor
  · show (l.take (l.length + 1 + j)).map some
        ++ List.replicate (l.length + 1 + j - l.length) none
      = l.map some ++ List.replicate (j + 1) none
    rw [List.take_of_length_le (by omega),
      show l.length + 1 + j - l.length = j + 1 from by omega]
  · show 0 + (l.length + 1 + j) = l.length + 1 + j
    omega

theorem next_twoH_pop0 (g : List (Option α)) (p : Nat) (lg : List α) (v : α)
    (rest q1 : List α) :
    next (twoH g p lg (v :: rest) q1) 0 = (some v, twoH g p lg rest q1) := rfl

theorem next_twoH_end0 (p : Nat) (lg q1 : List α) :
    next (twoH [] p lg [] q1) 0 = (none, twoH [] (p + 1) lg [] q1) := rfl

theorem next_twoH_some1 (g : List (Option α)) (p : Nat) (lg q0 : List α) (v : α) :
    next (twoH (some v :: g) p lg q0 []) 1
      = (some v, twoH g (p + 1) (lg ++ [v]) (q0 ++ [v]) []) := rfl

theorem next_twoH_end1 (p : Nat) (lg q0 : List α) :
    next (twoH [] p lg q0 []) 1 = (none, twoH [] (p + 1) lg q0 []) := rfl

theorem nextN_twoH_drain (l : List α) (m : Nat) (hm : m ≤ l.length) (p : Nat)
    (lg q0 : List α) :
    nextN (twoH (l.map some) p lg q0 []) 1 m
      = ((l.take m).map some,
         twoH ((l.drop m).map some) (p + m) (lg ++ l.take m) (q0 ++ l.take m) []) := by
  induction m generalizing l p lg q0 with
  | zero => simp [nextN]
  | succ m ih =>
    cases l with
    | nil => exact absurd hm (Nat.not_succ_le_zero m)
    | cons x l =>
      have hrec := ih l (Nat.le_of_succ_le_succ hm) (p + 1) (lg ++ [x]) (q0 ++ [x])
      rw [show List.map some (x :: l) = some x :: List.map some l from rfl,
        nextN_step _ _ _ _ _ (next_twoH_some1 (l.map some) p lg q0 x), hrec]
      simp only [List.take_succ_cons, List.drop_succ_cons, List.map_cons, List.cons_append,
        List.append_assoc, List.singleton_append, List.nil_append]
      have harith : p + 1 + m = p + (m + 1) := by omega
      rw [harith]

theorem nextN_twoH_backlog (q0 : List α) (m : Nat) (hm : m ≤ q0.length)
    (g : List (Option α)) (p : Nat) (lg q1 : List α) :
    nextN (twoH g p lg q0 q1) 0 m = ((q0.take m).map some, twoH g p lg (q0.drop m) q1) := by
  induction m generalizing q0 with
  | zero => simp [nextN]
  | succ m ih =>
    cases q0 with
    | nil => exact absurd hm (Nat.not_succ_le_zero m)
    | cons x q0 =>
      have hrec := ih q0 (Nat.le_of_succ_le_succ hm)
      rw [nextN_step _ _ _ _ _ (next_twoH_pop0 g p lg x q0 q1), hrec]
      simp [List.take_succ_cons, List.drop_succ_cons]

/-- Claim C1: for a finite generator of n elements wrapped as a clonable
iterator, if the first handle (symbol 0) has consumed k of the n elements and
is then forked, draining the new handle (n-k+1 polls) yields exactly the
elements [k, n) in order followed by end-of-sequence — never any of the first
k — and polling the original handle afterwards yields exactly the same
remaining elements, in the same order, as polling it with no fork would have
(both equal elements [k, n) then end).  The last conjunct is the claim's
concrete scenario with the alternating schedule: generator [1,2,3],
`h1.next() -> 1`, `h2 = h1.fork()`, then h1, h2, h1, h2, h1, h2 yield
2, 2, 3, 3, end, end. -/
theorem C1_fork_preserves_streams (l : List α) (k : Nat) (hk : k ≤ l.length) :
    (nextN (clonable (l.map some)).1 0 k).1 = (l.take k).map some ∧
    (∃ s2, forkH (nextN (clonable (l.map some)).1 0 k).2 0 = some (s2, 1) ∧
      (nextN s2 1 (l.length - k + 1)).1 = (l.drop k).map some ++ [none] ∧
      (nextN (nextN s2 1 (l.length - k + 1)).2 0 (l.length - k + 1)).1
        = (l.drop k).map some ++ [none] ∧
      (nextN (nextN (clonable (l.map some)).1 0 k).2 0 (l.length - k + 1)).1
        = (l.drop k).map some ++ [none]) ∧
    ((next (clonable ([1, 2, 3].map some)).1 0).1 = some 1 ∧
      ((forkH (next (clonable ([1, 2, 3].map some)).1 0).2 0).map
          fun r => (pollSeq r.1 [0, 1, 0, 1, 0, 1]).1)
        = some [some 2, some 2, some 3, some 3, none, none]) := by
  have hlen : (l.drop k).length = l.length - k := List.length_drop k l
  have htake : (l.drop k).take (l.length - k) = l.drop k :=
    List.take_of_length_le (le_of_eq hlen)
  have hdrop : (l.drop k).drop (l.length - k) = [] := by
    rw [← hlen]
    exact List.drop_length _
  have hk0 : (nextN (clonable (l.map some)).1 0 k).1 = (l.take k).map some := by
    rw [clonable_fst, nextN_oneH l k 0 []]
    show (l.take k).map some ++ List.replicate (k - l.length) none = (l.take k).map some
    rw [show k - l.length = 0 from by omega]
    simp
  have hs1 : (nextN (clonable (l.map some)).1 0 k).2
      = oneH ((l.drop k).map some) k (l.take k) [] := by
    rw [clonable_fst, nextN_oneH l k 0 []]
    show oneH ((l.drop k).map some) (0 + k) ([] ++ l.take k) [] = _
    rw [Nat.zero_add, List.nil_append]
  have hdrain : nextN (twoH ((l.drop k).map some) k (l.take k) [] []) 1 (l.length - k)
      = ((l.drop k).map some, twoH [] l.length (l.take k ++ l.drop k) (l.drop k) []) := by
    rw [nextN_twoH_drain (l.drop k) (l.length - k) (le_of_eq hlen.symm) k (l.take k) [],
      htake, hdrop, show k + (l.length - k) = l.length from by omega]
    simp only [List.map_nil, List.nil_append]
  have hs2out : nextN (twoH ((l.drop k).map some) k (l.take k) [] []) 1 (l.length - k + 1)
      = ((l.drop k).map some ++ [none],
         twoH [] (l.length + 1) (l.take k ++ l.drop k) (l.drop k) []) := by
    rw [nextN_add _ 1 (l.length - k) 1, hdrain, nextN_one,
      next_twoH_end1 l.length (l.take k ++ l.drop k) (l.drop k)]
  have hpost : nextN (twoH ([] : List (Option α)) (l.length + 1)
        (l.take k ++ l.drop k) (l.drop k) []) 0 (l.length - k + 1)
      = ((l.drop k).map some ++ [none],
         twoH [] (l.length + 1 + 1) (l.take k ++ l.drop k) [] []) := by
    rw [nextN_add _ 0 (l.length - k) 1,
      nextN_twoH_backlog (l.drop k) (l.length - k) (le_of_eq hlen.symm) []
        (l.length + 1) (l.take k ++ l.drop k) [],
      htake, hdrop, nextN_one,
      next_twoH_end0 (l.length + 1) (l.take k ++ l.drop k) ([] : List α)]
  have hnofork : (nextN (oneH ((l.drop k).map some) k (l.take k) []) 0 (l.length - k + 1)).1
      = (l.drop k).map some ++ [none] := by
    rw [nextN_oneH (l.drop k) (l.length - k + 1) k (l.take k)]
    show ((l.drop k).take (l.length - k + 1)).map some
        ++ List.replicate ((l.length - k + 1) - (l.drop k).length) none
      = (l.drop k).map some ++ [none]
    rw [List.take_of_length_le (by rw [hlen]; omega), hlen,
      show l.length - k + 1 - (l.length - k) = 1 from by omega]
    rfl
  refine ⟨hk0, ⟨twoH ((l.drop k).map some) k (l.take k) [] [], ?_, ?_, ?_, ?_⟩,
    by decide, by decide⟩
  · rw [hs1]
    rfl
  · rw [hs2out]
  · rw [hs2out]
    show (nextN (twoH ([] : List (Option α)) (l.length + 1)
        (l.take k ++ l.drop k) (l.drop k) []) 0 (l.length - k + 1)).1
      = (l.drop k).map some ++ [none]
    rw [hpost]
  · rw [hs1]
    exact hnofork

theorem C1_fork_preserves_streams_w :
    (nextN (clonable (([1, 2, 3] : List Nat).map some)).1 0 1).1
      = (([1, 2, 3] : List Nat).take 1).map some :=
  (C1_fork_preserves_streams [1, 2, 3] 1 (by decide)).1

end ClonableIter

namespace ClonableIter

variable {α β : Type}

theorem take_drop_succ : ∀ (g : List β) (p : Nat) (x : β) (rest : List β),
    g.drop p = x :: rest → g.take (p + 1) = g.take p ++ [x] ∧ g.drop (p + 1) = rest
  | g, 0, x, rest, h => by
    have hg : g = x :: rest := h
    subst hg
    exact ⟨rfl, rfl⟩
  | [], p + 1, x, rest, h => List.noConfusion h
  | y :: g, p + 1, x, rest, h => by
    have h' : g.drop p = x :: rest := h
    obtain ⟨h1, h2⟩ := take_drop_succ g p x rest h'
    refine ⟨?_, h2⟩
    show y :: g.take (p + 1) = (y :: g.take p) ++ [x]
    rw [h1]
    rfl

theorem take_succ_of_drop_nil {g : List β} {p : Nat} (h : g.drop p = []) :
    g.take (p + 1) = g.take p := by
  have hle : g.length ≤ p := List.drop_eq_nil_iff.mp h
  rw [List.take_of_length_le hle, List.take_of_length_le (Nat.le_succ_of_le hle)]

theorem drop_succ_of_drop_nil {g : List β} {p : Nat} (h : g.drop p = []) :
    g.drop (p + 1) = [] := by
  have hle : g.length ≤ p := List.drop_eq_nil_iff.mp h
  rw [List.drop_eq_nil_iff]
  exact Nat.le_succ_of_le hle

theorem produce_genInv {g : List (Option α)} {s : Sys α} (hs : genInv g s) :
    genInv g (produce s) := by
  obtain ⟨hgen, hlog⟩ := hs
  rcases s with ⟨gen, polls, lg, bus, nid⟩
  have hgen' : gen = g.drop polls := hgen
  have hlog' : lg = (g.take polls).filterMap id := hlog
  cases gen with
  | nil =>
    refine ⟨?_, ?_⟩
    · show ([] : List (Option α)) = g.drop (polls + 1)
      rw [drop_succ_of_drop_nil hgen'.symm]
    · show lg = (g.take (polls + 1)).filterMap id
      rw [take_succ_of_drop_nil hgen'.symm]
      exact hlog'
  | cons o rest =>
    cases o with
    | none =>
      obtain ⟨ht, hd⟩ := take_drop_succ g polls none rest hgen'.symm
      refine ⟨?_, ?_⟩
      · show rest = g.drop (polls + 1)
        rw [hd]
      · show lg = (g.take (polls + 1)).filterMap id
        rw [ht, List.filterMap_append]
        show lg = (g.take polls).filterMap id ++ []
        rw [List.append_nil]
        exact hlog'
    | some v =>
      obtain ⟨ht, hd⟩ := take_drop_succ g polls (some v) rest hgen'.symm
      refine ⟨?_, ?_⟩
      · show rest = g.drop (polls + 1)
        rw [hd]
      · show lg ++ [v] = (g.take (polls + 1)).filterMap id
        rw [ht, List.filterMap_append, ← hlog']
        rfl

theorem try_recv_genInv {g : List (Option α)} {s : Sys α} (hs : genInv g s) (h : Nat) :
    genInv g (try_recv s h).2 := by
  rcases hl : lookupQ s.bus h with _ | ⟨a, items⟩
  · simpa [try_recv, hl] using hs
  · cases items with
    | nil => simpa [try_recv, hl] using hs
    | cons v rest =>
      have heq : (try_recv s h).2 = { s with bus := setQ s.bus h ⟨a, rest⟩ } := by
        simp [try_recv, hl]
      rw [heq]
      exact ⟨hs.1, hs.2⟩

theorem next_genInv {g : List (Option α)} {s : Sys α} (hs : genInv g s) (h : Nat) :
    genInv g (next s h).2 := by
  rcases hcase : try_recv s h with ⟨o, s2⟩
  cases o with
  | some v =>
    have h2 : (next s h).2 = s2 := by simp [next, hcase]
    rw [h2]
    have hpres := try_recv_genInv hs h
    rwa [hcase] at hpres
  | none =>
    have h2 : (next s h).2 = (try_recv (produce s) h).2 := by simp [next, hcase]
    rw [h2]
    exact try_recv_genInv (produce_genInv hs) h

theorem forkH_some_eq {s : Sys α} {h : Nat} {s' : Sys α} {n : Nat}
    (hf : forkH s h = some (s', n)) :
    ∃ bus' q, branch_off s.bus h s.nextId = some (bus', q) ∧
      s' = ⟨s.gen, s.polls, s.log, bus', s.nextId + 1⟩ ∧ n = s.nextId := by
  rcases hb : branch_off s.bus h s.nextId with _ | p
  · rw [forkH, hb] at hf
    cases hf
  · obtain ⟨bus', q⟩ := p
    rw [forkH, hb] at hf
    have hp := Option.some.inj hf
    have h1 : ({ s with bus := bus', nextId := s.nextId + 1 } : Sys α) = s' :=
      congrArg Prod.fst hp
    have h2 : s.nextId = n := congrArg Prod.snd hp
    exact ⟨bus', q, rfl, h1.symm.trans rfl, h2.symm⟩

theorem step_genInv {g : List (Option α)} {c : Conf α} (hs : genInv g c.sys) (op : Op) :
    genInv g (step c op).sys := by
  cases op with
  | poll h =>
    by_cases hm : h ∈ c.live
    · simp only [step, if_pos hm]
      exact next_genInv hs h
    · simp only [step, if_neg hm]
      exact hs
  | fork h =>
    by_cases hm : h ∈ c.live
    · simp only [step, if_pos hm]
      rcases hf : forkH c.sys h with _ | p
      · exact hs
      · obtain ⟨s', n⟩ := p
        show genInv g s'
        obtain ⟨bus', q, hb, hseq, hn⟩ := forkH_some_eq hf
        rw [hseq]
        exact ⟨hs.1, hs.2⟩
    · simp only [step, if_neg hm]
      exact hs
  | dropO h =>
    by_cases hm : h ∈ c.live
    · simp only [step, if_pos hm]
      exact ⟨hs.1, hs.2⟩
    · simp only [step, if_neg hm]
      exact hs

theorem run_genInv (g : List (Option α)) (ops : List Op) :
    genInv g (run (init g) ops).sys := by
  suffices hgen : ∀ c : Conf α, genInv g c.sys → genInv g (run c ops).sys by
    exact hgen _ ⟨rfl, rfl⟩
  induction ops with
  | nil => exact fun c hc => hc
  | cons op ops ih => exact fun c hc => ih (step c op) (step_genInv hc op)

/-- Claim C5: at every point in any sequence of wrap, next, fork, and drop
operations, the unconsumed part of the generator is exactly the wrapped
stream minus the polls already made, and the sequence of elements ever
broadcast through the bus, in order (`Sys.log`), equals exactly the
productive prefix the underlying generator would have produced if polled
directly the same number of times — regardless of how many handles exist or
how forking interleaves with advancing. -/
theorem C5_broadcast_log_is_generator_prefix (g : List (Option α)) (ops : List Op) :
    (run (init g) ops).sys.gen = g.drop (run (init g) ops).sys.polls ∧
    (run (init g) ops).sys.log
      = (g.take (run (init g) ops).sys.polls).filterMap id :=
  run_genInv g ops

end ClonableIter

namespace ClonableIter

variable {α β : Type}

theorem alive_preserved_try_recv {s : Sys α} {i : Nat} {q : Queue α} (h : Nat)
    (hq : lookupQ s.bus i = some q) (hal : q.alive = true) :
    ∃ q', lookupQ (try_recv s h).2.bus i = some q' ∧ q'.alive = true := by
  rcases hl : lookupQ s.bus h with _ | ⟨a, items⟩
  · refine ⟨q, ?_, hal⟩
    simp [try_recv, hl, hq]
  · cases items with
    | nil =>
      refine ⟨q, ?_, hal⟩
      simp [try_recv, hl, hq]
    | cons v rest =>
      have heq : (try_recv s h).2 = { s with bus := setQ s.bus h ⟨a, rest⟩ } := by
        simp [try_recv, hl]
      rw [heq]
      by_cases hih : i = h
      · subst hih
        have hqa : q = ⟨a, v :: rest⟩ := by
          rw [hq] at hl
          exact Option.some.inj hl
        refine ⟨⟨a, rest⟩, ?_, ?_⟩
        · show lookupQ (setQ s.bus i ⟨a, rest⟩) i = some ⟨a, rest⟩
          exact lookupQ_setQ_self hq _
        · show a = true
          rw [hqa] at hal
          exact hal
      · refine ⟨q, ?_, hal⟩
        show lookupQ (setQ s.bus h ⟨a, rest⟩) i = some q
        rw [lookupQ_setQ_ne hih]
        exact hq

theorem alive_preserved_produce {s : Sys α} {i : Nat} {q : Queue α}
    (hq : lookupQ s.bus i = some q) (hal : q.alive = true) :
    ∃ q', lookupQ (produce s).bus i = some q' ∧ q'.alive = true := by
  rcases s with ⟨gen, polls, lg, bus, nid⟩
  cases gen with
  | nil => exact ⟨q, hq, hal⟩
  | cons o rest =>
    cases o with
    | none => exact ⟨q, hq, hal⟩
    | some v =>
      refine ⟨⟨true, q.items ++ [v]⟩, ?_, rfl⟩
      show lookupQ (broadcast bus v).1 i = some ⟨true, q.items ++ [v]⟩
      rw [lookupQ_broadcast]
      have hq' : lookupQ bus i = some q := hq
      rw [hq']
      simp [hal]

theorem alive_preserved_next {s : Sys α} {i : Nat} {q : Queue α} (h : Nat)
    (hq : lookupQ s.bus i = some q) (hal : q.alive = true) :
    ∃ q', lookupQ (next s h).2.bus i = some q' ∧ q'.alive = true := by
  rcases hcase : try_recv s h with ⟨o, s2⟩
  cases o with
  | some v =>
    have h2 : (next s h).2 = s2 := by simp [next, hcase]
    rw [h2]
    obtain ⟨q', hq', hal'⟩ := alive_preserved_try_recv h hq hal
    rw [hcase] at hq'
    exact ⟨q', hq', hal'⟩
  | none =>
    have h2 : (next s h).2 = (try_recv (produce s) h).2 := by simp [next, hcase]
    rw [h2]
    obtain ⟨q', hq', hal'⟩ := alive_preserved_produce hq hal
    exact alive_preserved_try_recv h hq' hal'

theorem keys_try_recv (s : Sys α) (h : Nat) :
    (try_recv s h).2.bus.map Prod.fst = s.bus.map Prod.fst := by
  rcases hl : lookupQ s.bus h with _ | ⟨a, items⟩
  · simp [try_recv, hl]
  · cases items with
    | nil => simp [try_recv, hl]
    | cons v rest =>
      have heq : (try_recv s h).2 = { s with bus := setQ s.bus h ⟨a, rest⟩ } := by
        simp [try_recv, hl]
      rw [heq]
      exact setQ_keys _ _ _

theorem keys_produce (s : Sys α) : (produce s).bus.map Prod.fst = s.bus.map Prod.fst := by
  rcases s with ⟨gen, polls, lg, bus, nid⟩
  cases gen with
  | nil => rfl
  | cons o rest =>
    cases o with
    | none => rfl
    | some v => exact broadcast_fst bus v

theorem keys_next (s : Sys α) (h : Nat) :
    (next s h).2.bus.map Prod.fst = s.bus.map Prod.fst := by
  rcases hcase : try_recv s h with ⟨o, s2⟩
  cases o with
  | some v =>
    have h2 : (next s h).2 = s2 := by simp [next, hcase]
    rw [h2]
    have hkeys := keys_try_recv s h
    rwa [hcase] at hkeys
  | none =>
    have h2 : (next s h).2 = (try_recv (produce s) h).2 := by simp [next, hcase]
    rw [h2, keys_try_recv, keys_produce]

theorem nextId_try_recv (s : Sys α) (h : Nat) : (try_recv s h).2.nextId = s.nextId := by
  rcases hl : lookupQ s.bus h with _ | ⟨a, items⟩
  · simp [try_recv, hl]
  · cases items with
    | nil => simp [try_recv, hl]
    | cons v rest => simp [try_recv, hl]

theorem nextId_produce (s : Sys α) : (produce s).nextId = s.nextId := by
  rcases s with ⟨gen, polls, lg, bus, nid⟩
  cases gen with
  | nil => rfl
  | cons o rest => cases o <;> rfl

theorem nextId_next (s : Sys α) (h : Nat) : (next s h).2.nextId = s.nextId := by
  rcases hcase : try_recv s h with ⟨o, s2⟩
  cases o with
  | some v =>
    have h2 : (next s h).2 = s2 := by simp [next, hcase]
    rw [h2]
    have hni := nextId_try_recv s h
    rwa [hcase] at hni
  | none =>
    have h2 : (next s h).2 = (try_recv (produce s) h).2 := by simp [next, hcase]
    rw [h2, nextId_try_recv, nextId_produce]

theorem branch_off_cases {b : Bus α} {prevId newId : Nat} {b' : Bus α} {qn : Queue α}
    (hb : branch_off b prevId newId = some (b', qn)) :
    ∃ q, lookupQ b prevId = some q ∧
      b' = setQ b prevId (pushAll ⟨q.alive, []⟩ q.items)
          ++ [(newId, pushAll ⟨true, []⟩ q.items)] ∧
      qn = pushAll ⟨true, []⟩ q.items := by
  rcases hl : lookupQ b prevId with _ | q
  · rw [branch_off, hl] at hb
    cases hb
  · simp only [branch_off, hl] at hb
    split at hb
    · injection hb with hb1
      injection hb1 with h1 h2
      exact ⟨q, rfl, h1.symm, h2.symm⟩
    · cases hb

theorem step_WF {c : Conf α} (hwf : WF c) (op : Op) : WF (step c op) := by
  obtain ⟨hlt, hreg, hnd⟩ := hwf
  cases op with
  | poll h =>
    by_cases hm : h ∈ c.live
    · simp only [step, if_pos hm]
      refine ⟨?_, ?_, hnd⟩
      · intro p hp
        show p.1 < (next c.sys h).2.nextId
        have hk : p.1 ∈ c.sys.bus.map Prod.fst := by
          rw [← keys_next c.sys h]
          exact List.mem_map_of_mem Prod.fst hp
        obtain ⟨p', hp', hfst⟩ := List.mem_map.mp hk
        rw [nextId_next, ← hfst]
        exact hlt p' hp'
      · intro h' hh'
        obtain ⟨q, hq, hal⟩ := hreg h' hh'
        exact alive_preserved_next h hq hal
    · simp only [step, if_neg hm]
      exact ⟨hlt, hreg, hnd⟩
  | fork h =>
    by_cases hm : h ∈ c.live
    · simp only [step, if_pos hm]
      rcases hf : forkH c.sys h with _ | p
      · exact ⟨hlt, hreg, hnd⟩
      · obtain ⟨s', n⟩ := p
        obtain ⟨bus', q, hb, hseq, hn⟩ := forkH_some_eq hf
        obtain ⟨qc, hlq, hbus', hqn⟩ := branch_off_cases hb
        subst hseq
        subst hn
        subst hbus'
        refine ⟨?_, ?_, ?_⟩
        · intro pr hpr
          show pr.1 < c.sys.nextId + 1
          rcases List.mem_append.mp hpr with hin | hin
          · have hk : pr.1 ∈ (setQ c.sys.bus h (pushAll ⟨qc.alive, []⟩ qc.items)).map Prod.fst :=
              List.mem_map_of_mem Prod.fst hin
            rw [setQ_keys] at hk
            obtain ⟨p', hp', hfst⟩ := List.mem_map.mp hk
            rw [← hfst]
            exact Nat.lt_succ_of_lt (hlt p' hp')
          · have hpr' : pr = (c.sys.nextId, pushAll ⟨true, []⟩ qc.items) :=
              List.mem_singleton.mp hin
            rw [hpr']
            exact Nat.lt_succ_self _
        · intro h' hh'
          rcases List.mem_cons.mp hh' with heq | hin
          · subst heq
            refine ⟨pushAll ⟨true, []⟩ qc.items, ?_, ?_⟩
            · rw [lookupQ_append_right]
              · show (if c.sys.nextId = c.sys.nextId then some (pushAll ⟨true, []⟩ qc.items)
                      else none)
                    = some (pushAll ⟨true, []⟩ qc.items)
                rw [if_pos rfl]
              · apply lookupQ_eq_none
                rw [setQ_keys]
                intro hmem
                obtain ⟨p', hp', hfst⟩ := List.mem_map.mp hmem
                have hplt := hlt p' hp'
                rw [hfst] at hplt
                exact lt_irrefl _ hplt
            · rw [pushAll_eq]
          · obtain ⟨qh', hqh', halh'⟩ := hreg h' hin
            by_cases hih : h' = h
            · subst hih
              have hq_eq : qh' = qc := by
                rw [hlq] at hqh'
                exact (Option.some.inj hqh').symm
              refine ⟨pushAll ⟨qc.alive, []⟩ qc.items, ?_, ?_⟩
              · exact lookupQ_append_left (lookupQ_setQ_self hlq _) _
              · rw [pushAll_eq]
                show qc.alive = true
                rw [← hq_eq]
                exact halh'
            · refine ⟨qh', ?_, halh'⟩
              apply lookupQ_append_left
              rw [lookupQ_setQ_ne hih]
              exact hqh'
        · rw [List.nodup_cons]
          refine ⟨?_, hnd⟩
          intro hmem
          obtain ⟨qh', hqh', _⟩ := hreg _ hmem
          have hk : c.sys.nextId ∈ c.sys.bus.map Prod.fst :=
            List.mem_map_of_mem Prod.fst (lookupQ_mem hqh')
          obtain ⟨p', hp', hfst⟩ := List.mem_map.mp hk
          have hplt := hlt p' hp'
          rw [hfst] at hplt
          exact lt_irrefl _ hplt
    · simp only [step, if_neg hm]
      exact ⟨hlt, hreg, hnd⟩
  | dropO h =>
    by_cases hm : h ∈ c.live
    · simp only [step, if_pos hm]
      refine ⟨?_, ?_, hnd.erase h⟩
      · intro p hp
        show p.1 < c.sys.nextId
        have hk : p.1 ∈ (setQ c.sys.bus h ⟨false, []⟩).map Prod.fst :=
          List.mem_map_of_mem Prod.fst hp
        rw [setQ_keys] at hk
        obtain ⟨p', hp', hfst⟩ := List.mem_map.mp hk
        rw [← hfst]
        exact hlt p' hp'
      · intro h' hh'
        obtain ⟨hne, hin⟩ := (List.Nodup.mem_erase_iff hnd).mp hh'
        obtain ⟨q, hq, hal⟩ := hreg h' hin
        refine ⟨q, ?_, hal⟩
        show lookupQ (setQ c.sys.bus h ⟨false, []⟩) h' = some q
        rw [lookupQ_setQ_ne hne]
        exact hq
    · simp only [step, if_neg hm]
      exact ⟨hlt, hreg, hnd⟩

theorem init_WF (g : List (Option α)) : WF (init g) := by
  refine ⟨?_, ?_, ?_⟩
  · intro p hp
    have hp' : p = (0, ⟨true, []⟩) := List.mem_singleton.mp hp
    rw [hp']
    exact Nat.zero_lt_one
  · intro h hh
    have hh' : h = 0 := List.mem_singleton.mp hh
    subst hh'
    exact ⟨⟨true, []⟩, rfl, rfl⟩
  · exact List.nodup_singleton 0

theorem run_WF (g : List (Option α)) (ops : List Op) : WF (run (init g) ops) := by
  suffices hgen : ∀ c : Conf α, WF c → WF (run c ops) by exact hgen _ (init_WF g)
  induction ops with
  | nil => exact fun c hc => hc
  | cons op ops ih => exact fun c hc => ih (step c op) (step_WF hc op)

theorem branch_off_isSome {b : Bus α} {prevId : Nat} {q : Queue α} (newId : Nat)
    (hq : lookupQ b prevId = some q) (hal : q.alive = true) :
    branch_off b prevId newId
      = some (setQ b prevId (pushAll ⟨q.alive, []⟩ q.items)
          ++ [(newId, pushAll ⟨true, []⟩ q.items)], pushAll ⟨true, []⟩ q.items) := by
  simp only [branch_off, hq]
  rw [if_pos (show (q.alive || q.items.isEmpty) = true by rw [hal]; exact Bool.true_or _)]

/-- Claim C10: the internal panics in `branch_off` are unreachable from the
public interface.  In every configuration reachable by any sequence of wrap,
next, clone, and drop operations, every still-existing handle's symbol is a
key of the bus's senders map — entries are inserted at registration
(`add_rx` / `branch_off`) and never removed — and its channel's receiver is
alive, so `senders.get_mut(&prev.id).unwrap()` succeeds and every
`send(..).unwrap()` of the fork's drain/restore targets a live channel
(the new receiver is held locally, the source receiver by the caller):
`Clonable::clone` (`forkH`) on such a handle never hits a panic path. -/
theorem C10_branch_off_panics_unreachable (g : List (Option α)) (ops : List Op) (h : Nat)
    (hh : h ∈ (run (init g) ops).live) :
    (∃ q, lookupQ (run (init g) ops).sys.bus h = some q ∧ q.alive = true) ∧
    (forkH (run (init g) ops).sys h).isSome = true := by
  obtain ⟨hlt, hreg, hnd⟩ := run_WF g ops
  obtain ⟨q, hq, hal⟩ := hreg h hh
  refine ⟨⟨q, hq, hal⟩, ?_⟩
  rw [forkH, branch_off_isSome (run (init g) ops).sys.nextId hq hal]
  rfl

theorem C10_branch_off_panics_unreachable_w :
    0 ∈ (run (init ([] : List (Option Nat))) []).live ∧
    (forkH (run (init ([] : List (Option Nat))) []).sys 0).isSome = true :=
  ⟨by decide, (C10_branch_off_panics_unreachable [] [] 0 (by decide)).2⟩

end ClonableIter
